import Mathlib

/-!
Verification of the `go_tree` trie index (package `indexes`).

The repository holds two Go files: `trienode.go` (the `TrieNode` structure and its
map/value primitives) and the trie façade (`Trie` with `Add`, `Remove`, `Get`,
`GetMany`, plus the helpers `findTip`, `removeHelper`, `depthFirst`).

Embedding conventions:
* characters are the bytes the Go code iterates over (`rune(s[i])`), modelled as `Nat`;
* identifiers (`bson.ObjectId`) are opaque comparable tokens, modelled as `Nat`;
* a Go map `map[rune]*TrieNode` is an association list with unique keys whose values
  are `Option TrieNode` (`none` is the `nil` pointer: `RemoveLink` stores `nil` under
  the key, so a key may be present and map to `nil`, and a missing key also reads as
  `nil`);
* iterating `GetAllRunes()` and then reading `GetLink` on an unchanged map is, for a
  map with unique keys, the same as iterating the (key, value) entries, which is how
  the child loops are embedded;
* in-place pointer mutation becomes functional update along the traversed path.
-/

set_option maxHeartbeats 1000000

namespace GoTree

/-- Modelled from the spec: the Identifier Set component. Its source file is not part
of the repository snapshot (only its callers in `trienode.go` and the trie file are),
so it is taken from the spec, section 4.1: deduplicated storage of identifiers;
`SaveVal` inserts if absent and is a no-op if present (idempotent), `Remove` deletes
if present and is a no-op otherwise, `ContainsVal` is a membership test, `Size` the
count, and `GetVals` materializes the current members as a sequence. -/
structure IDSet where
  vals : List Nat
deriving DecidableEq

/-- Modelled from the spec: a fresh, empty identifier set. -/
def NewIDSet : IDSet := ⟨[]⟩

/-- Modelled from the spec: membership test. -/
def IDSet.ContainsVal (s : IDSet) (id : Nat) : Bool :=
  s.vals.contains id

/-- Modelled from the spec: insert if absent, no-op if already present. -/
def IDSet.SaveVal (s : IDSet) (id : Nat) : IDSet :=
  if s.ContainsVal id then s else ⟨s.vals ++ [id]⟩

/-- Modelled from the spec: delete if present, no-op otherwise. -/
def IDSet.Remove (s : IDSet) (id : Nat) : IDSet :=
  ⟨s.vals.filter (fun x => x ≠ id)⟩

/-- Modelled from the spec: number of stored identifiers. -/
def IDSet.Size (s : IDSet) : Nat :=
  s.vals.length

/-- Modelled from the spec: materialize the members as a sequence. -/
def IDSet.GetVals (s : IDSet) : List Nat :=
  s.vals

/-- Structure `TrieNode` from `trienode.go`: a child map from one character to a child pointer
(which `RemoveLink` can set to `nil`, hence `Option TrieNode` values), plus the
identifier set of this position. -/
inductive TrieNode : Type where
  | mk (link : List (Nat × Option TrieNode)) (idset : IDSet) : TrieNode

/-- Projection of the child map. -/
def TrieNode.link : TrieNode → List (Nat × Option TrieNode)
  | .mk l _ => l

/-- Projection of the identifier set. -/
def TrieNode.idset : TrieNode → IDSet
  | .mk _ s => s

/-- Map read on the association list: `some v` when the key is present (`v` itself is
the stored pointer, possibly `none` = `nil`), `none` when the key is absent. -/
def lookupL : List (Nat × Option TrieNode) → Nat → Option (Option TrieNode)
  | [], _ => none
  | (k, v) :: rest, r => if k = r then some v else lookupL rest r

/-- Map write on the association list: replace the value under the key if present,
append the binding otherwise (Go `m[r] = v`). -/
def putL : List (Nat × Option TrieNode) → Nat → Option TrieNode → List (Nat × Option TrieNode)
  | [], r, v => [(r, v)]
  | (k, w) :: rest, r, v => if k = r then (r, v) :: rest else (k, w) :: putL rest r v

/-- Constructor `NewTrieNode` from `trienode.go`: empty child map, fresh identifier set. -/
def NewTrieNode : TrieNode := .mk [] NewIDSet

/-- Method `GetLink` from `trienode.go`: `tn.link[r]`. A missing key reads as the zero value
`nil`, and a key stored with value `nil` also reads as `nil`. -/
def TrieNode.GetLink (tn : TrieNode) (r : Nat) : Option TrieNode :=
  match lookupL tn.link r with
  | some (some c) => some c
  | _ => none

/-- Method `PutLink` from `trienode.go`: `tn.link[r] = link`. -/
def TrieNode.PutLink (tn : TrieNode) (r : Nat) (l : Option TrieNode) : TrieNode :=
  .mk (putL tn.link r l) tn.idset

/-- Method `GetAllRunes` from `trienode.go`: the keys of the child map (including keys whose
stored pointer is `nil`). -/
def TrieNode.GetAllRunes (tn : TrieNode) : List Nat :=
  tn.link.map Prod.fst

/-- Method `RemoveLink` from `trienode.go`: `tn.link[r] = nil` — the key stays in the map,
its value becomes the `nil` pointer. -/
def TrieNode.RemoveLink (tn : TrieNode) (r : Nat) : TrieNode :=
  .mk (putL tn.link r none) tn.idset

/-- Method `SaveVal` from `trienode.go`: delegate to the identifier set. -/
def TrieNode.SaveVal (tn : TrieNode) (id : Nat) : TrieNode :=
  .mk tn.link (tn.idset.SaveVal id)

/-- Method `GetVals` from `trienode.go`: the identifier set as a sequence. -/
def TrieNode.GetVals (tn : TrieNode) : List Nat :=
  tn.idset.GetVals

/-- Method `RemoveVal` from `trienode.go`: delegate removal to the identifier set. -/
def TrieNode.RemoveVal (tn : TrieNode) (id : Nat) : TrieNode :=
  .mk tn.link (tn.idset.Remove id)

/-- Method `ContainsVal` from `trienode.go`. -/
def TrieNode.ContainsVal (tn : TrieNode) (id : Nat) : Bool :=
  tn.idset.ContainsVal id

/-- Method `IsLeafNode` from `trienode.go`: no children links, counting keys of the child
map (a key mapped to `nil` still counts). -/
def TrieNode.IsLeafNode (tn : TrieNode) : Bool :=
  tn.GetAllRunes.length = 0

/-- Struct `Trie`: the root node. The `sync.RWMutex` field has no data content; the
lock call sequence each method performs is modelled separately by the lock traces
below. -/
structure Trie where
  root : TrieNode

/-- Constructor `NewTrie`. -/
def NewTrie : Trie := ⟨NewTrieNode⟩

/-- ASCII case folding of one byte, the byte-level effect of `strings.ToLower` on
the ASCII keys the spec's contract is stated over. -/
def lowerByte (c : Nat) : Nat :=
  if 65 ≤ c ∧ c ≤ 90 then c + 32 else c

/-- Go `strings.ToLower` applied to a key, byte by byte. -/
def lowerStr (s : List Nat) : List Nat :=
  s.map lowerByte

/-- The walk/build loop of `Trie.Add`: follow the existing child when present,
otherwise create and attach a fresh node; at the end of the key, save the identifier
unless it is already present. -/
def addLoop : TrieNode → List Nat → Nat → TrieNode
  | curr, [], id => if curr.ContainsVal id then curr else curr.SaveVal id
  | curr, r :: rest, id =>
    match curr.GetLink r with
    | some child => curr.PutLink r (some (addLoop child rest id))
    | none => curr.PutLink r (some (addLoop NewTrieNode rest id))

/-- Method `Trie.Add`: lower-cases the key, then runs the walk/build loop from the root
(the Go method also returns the terminal node, which no caller in the repository
uses; the state effect is embedded). -/
def Trie.Add (t : Trie) (s : List Nat) (id : Nat) : Trie :=
  ⟨addLoop t.root (lowerStr s) id⟩

/-- Helper `findTip`: follow the path of the prefix; `none` when a link is missing. -/
def findTip : List Nat → TrieNode → Option TrieNode
  | [], curr => some curr
  | r :: rest, curr =>
    match curr.GetLink r with
    | some c => findTip rest c
    | none => none

/-- Helper `removeHelper`: returns the updated node together with the `shouldDelete` signal
(true when, after the removal, the node holds zero identifiers and is a leaf). -/
def removeHelper : TrieNode → List Nat → Nat → TrieNode × Bool
  | curr, [], id =>
    if ¬ curr.ContainsVal id then (curr, false)
    else
      let c1 := curr.RemoveVal id
      if c1.GetVals.length = 0 ∧ c1.IsLeafNode then (c1, true) else (c1, false)
  | curr, r :: rest, id =>
    match curr.GetLink r with
    | none => (curr, false)
    | some node =>
      let res := removeHelper node rest id
      if res.2 then
        let c1 := (curr.PutLink r (some res.1)).RemoveLink r
        (c1, c1.IsLeafNode)
      else
        (curr.PutLink r (some res.1), false)

/-- Method `Trie.Remove`: runs `removeHelper` from the root. Note two facts visible in the
source: the prefix is passed through verbatim (no `strings.ToLower`), and the method
touches no lock. -/
def Trie.Remove (t : Trie) (p : List Nat) (id : Nat) : Trie :=
  ⟨(removeHelper t.root p id).1⟩

/-- Method `Trie.Get`: lower-case the key, follow the path, return the terminal node's
values, or an empty sequence when the path is missing or the node holds none. -/
def Trie.Get (t : Trie) (p : List Nat) : List Nat :=
  match findTip (lowerStr p) t.root with
  | some curr =>
    let vals := curr.GetVals
    if vals.length ≠ 0 then vals else []
  | none => []

/-- The saving loop inside `depthFirst`: save each identifier of the visited node
while the accumulator holds fewer than `mx` identifiers. -/
def savePhase : List Nat → Int → IDSet → IDSet
  | [], _, res => res
  | id :: rest, mx, res =>
    savePhase rest mx (if (res.Size : Int) < mx then res.SaveVal id else res)

mutual

/-- Helper `depthFirst`: returns immediately on `nil`; otherwise drains the node's own
identifiers (capped), returns early when the node holds values and is a leaf, and
recurses into every child entry (including entries `RemoveLink` left as `nil`). -/
def depthFirst : Option TrieNode → Int → IDSet → IDSet
  | none, _, res => res
  | some (.mk link ids), mx, res =>
    let idList := (TrieNode.mk link ids).GetVals
    let res1 := if idList.length > 0 then savePhase idList mx res else res
    if idList.length > 0 ∧ (TrieNode.mk link ids).IsLeafNode then res1
    else depthFirstKids link mx res1
termination_by c _ _ => sizeOf c

/-- The child loop of `depthFirst` over the entries of the child map. -/
def depthFirstKids : List (Nat × Option TrieNode) → Int → IDSet → IDSet
  | [], _, res => res
  | (_, c) :: rest, mx, res => depthFirstKids rest mx (depthFirst c mx res)
termination_by l _ _ => sizeOf l

end

/-- Method `Trie.GetMany`: lower-case the prefix, find the tip, and collect at most `n`
distinct identifiers from its subtree into a fresh accumulating set. -/
def Trie.GetMany (t : Trie) (p : List Nat) (n : Int) : List Nat :=
  match findTip (lowerStr p) t.root with
  | some curr => (depthFirst (some curr) n NewIDSet).GetVals
  | none => NewIDSet.GetVals

/-- The lock operations a method performs, in order (on the single `Trie.mx`
reader/writer mutex). -/
inductive LockEv : Type where
  | lock | unlock | rlock | runlock
deriving DecidableEq

/-- Lock trace of `Trie.Add`: `t.mx.Lock()` on entry, `t.mx.Unlock()` before
returning. -/
def addLockTrace : List LockEv := [.lock, .unlock]

/-- Lock trace of `Trie.Get`: `t.mx.RLock()` with a deferred `t.mx.RUnlock()`. -/
def getLockTrace : List LockEv := [.rlock, .runlock]

/-- Lock trace of `Trie.GetMany`: `t.mx.RLock()` with a deferred `t.mx.RUnlock()`. -/
def getManyLockTrace : List LockEv := [.rlock, .runlock]

/-- Lock trace of `Trie.Remove`: the method body never touches `t.mx`. -/
def removeLockTrace : List LockEv := []

/-! ### Mutation operations over traces (used to state reachable-state invariants) -/

/-- One mutating public call on the index. -/
inductive Op : Type where
  | add : List Nat → Nat → Op
  | rem : List Nat → Nat → Op

/-- Apply one mutating call. -/
def runOp (t : Trie) : Op → Trie
  | .add k id => t.Add k id
  | .rem k id => t.Remove k id

/-- Apply a sequence of mutating calls. -/
def runOps (t : Trie) : List Op → Trie
  | [] => t
  | op :: rest => runOps (runOp t op) rest

/-- Every `Add` in the sequence uses a nonempty key. -/
def addKeysNonempty : List Op → Bool
  | [] => true
  | .add k _ :: rest => (!k.isEmpty) && addKeysNonempty rest
  | .rem _ _ :: rest => addKeysNonempty rest

/-- The (key, id) pair addressed verbatim by `p` is present: the path exists and the
terminal node contains `id`. -/
def pairPresentB (t : TrieNode) (p : List Nat) (id : Nat) : Bool :=
  match findTip p t with
  | some n => n.ContainsVal id
  | none => false

/-! ### The identifiers stored in a subtree (specification-side measure for C4) -/

mutual

/-- All identifiers stored at or below a (possibly nil) node, in traversal order. -/
def subIds : Option TrieNode → List Nat
  | none => []
  | some (.mk link ids) => ids.GetVals ++ subIdsKids link
termination_by c => sizeOf c

/-- All identifiers stored in the subtrees of a child list. -/
def subIdsKids : List (Nat × Option TrieNode) → List Nat
  | [] => []
  | (_, c) :: rest => subIds c ++ subIdsKids rest
termination_by l => sizeOf l

end

/-! ### The collection invariant of the bounded depth-first traversal

`Phi mx res avail out` says: starting the capped accumulating set from `res` and
offering it the identifiers `avail`, the traversal ends in `out`, which extends
`res`, stays duplicate-free, only ever contains old elements or offered ones, has
length exactly `max (min mx |res ∪ avail|) |res|`, and — whenever the cap was not
reached — contains every offered identifier. -/
def Phi (mx : Int) (res avail out : List Nat) : Prop :=
  out.Nodup ∧
  (∃ xs, out = res ++ xs) ∧
  out.toFinset ⊆ res.toFinset ∪ avail.toFinset ∧
  (out.length : Int) =
    max (min mx (((res.toFinset ∪ avail.toFinset).card : Int))) (res.length : Int) ∧
  ((out.length : Int) < mx → res.toFinset ∪ avail.toFinset ⊆ out.toFinset)

/-- The contract of `GetMany` stated by the claim: an empty result when the prefix
path does not exist; otherwise a duplicate-free sequence of identifiers each stored
at or below the tip, of length exactly the minimum of the limit and the number of
distinct identifiers in that subtree. -/
def C4Post (t : Trie) (p : List Nat) (n : Int) : Prop :=
  match findTip (lowerStr p) t.root with
  | none => t.GetMany p n = []
  | some tip =>
      (t.GetMany p n).Nodup ∧
      (∀ x ∈ t.GetMany p n, x ∈ subIds (some tip)) ∧
      ((t.GetMany p n).length : Int) = min n (((subIds (some tip)).toFinset.card : Int))

/-! ### Instrumented read path: nil dereference modelled as failure

Every method call on a `*TrieNode` requires the pointer to be non-nil; `deref`
makes that explicit, so a traversal that ever called a method on a nil pointer
would return `.error ()`. The instrumented `findTipE`, `depthFirstE`, `GetE` and
`GetManyE` mirror the Go statements, including the nil guards of `findTip`
(checking a child link before descending), of `depthFirst` (returning on a nil
argument) and of `Get`/`GetMany` (testing the tip before using it). -/

/-- Dereference a node pointer; `nil` panics. -/
def deref : Option TrieNode → Except Unit TrieNode
  | none => .error ()
  | some t => .ok t

/-- Helper `findTip`, instrumented: each loop iteration calls `curr.GetLink(r)` and only
descends into a link after checking it is non-nil. -/
def findTipE : List Nat → Option TrieNode → Except Unit (Option TrieNode)
  | [], curr => .ok curr
  | r :: rest, curr => do
    let c ← deref curr
    match c.GetLink r with
    | some _ => findTipE rest (c.GetLink r)
    | none => .ok none

mutual

/-- Helper `depthFirst`, instrumented: returns immediately when the argument is nil, and
otherwise dereferences it for the `GetVals`/`IsLeafNode`/child-loop method calls. -/
def depthFirstE : Option TrieNode → Int → IDSet → Except Unit IDSet
  | curr, mx, res =>
    if curr.isNone then .ok res
    else
      match curr with
      | none => .error ()
      | some (.mk link ids) =>
        let idList := ids.GetVals
        let res1 := if idList.length > 0 then savePhase idList mx res else res
        if idList.length > 0 ∧ (TrieNode.mk link ids).IsLeafNode then .ok res1
        else depthFirstKidsE link mx res1
termination_by c _ _ => sizeOf c

/-- The child loop of `depthFirstE`: recurses into every entry, including entries
`RemoveLink` left mapped to nil. -/
def depthFirstKidsE : List (Nat × Option TrieNode) → Int → IDSet → Except Unit IDSet
  | [], _, res => .ok res
  | (_, c) :: rest, mx, res => do
    let r1 ← depthFirstE c mx res
    depthFirstKidsE rest mx r1
termination_by l _ _ => sizeOf l

end

/-- Method `Get`, instrumented: uses the tip only under the non-nil check. -/
def GetE (t : Trie) (p : List Nat) : Except Unit (List Nat) := do
  let curr ← findTipE (lowerStr p) (some t.root)
  if curr.isSome then
    match curr with
    | none => .error ()
    | some c =>
      let vals := c.GetVals
      if vals.length ≠ 0 then .ok vals else .ok []
  else .ok []

/-- Method `GetMany`, instrumented: runs the bounded traversal from the tip only under the
non-nil check. -/
def GetManyE (t : Trie) (p : List Nat) (n : Int) : Except Unit (List Nat) := do
  let curr ← findTipE (lowerStr p) (some t.root)
  let res := NewIDSet
  if curr.isSome then
    let out ← depthFirstE curr n res
    .ok out.GetVals
  else .ok res.GetVals

/-! ### Well-formed states: every node's identifier set is duplicate-free -/

/-- Every identifier set in the tree is duplicate-free. This holds for every state
the operations can reach (the spec-modelled `IDSet.SaveVal` only inserts absent
identifiers), and is the hypothesis under which `Get` cannot return duplicates. -/
inductive WFNode : TrieNode → Prop where
  | mk : ∀ (link : List (Nat × Option TrieNode)) (ids : IDSet), ids.vals.Nodup →
      (∀ r c, lookupL link r = some (some c) → WFNode c) → WFNode (.mk link ids)

/-! ### Association-list map lemmas -/

@[simp] theorem TrieNode.link_mk (l : List (Nat × Option TrieNode)) (s : IDSet) :
    (TrieNode.mk l s).link = l := rfl

@[simp] theorem TrieNode.idset_mk (l : List (Nat × Option TrieNode)) (s : IDSet) :
    (TrieNode.mk l s).idset = s := rfl

theorem lookupL_putL_self (l : List (Nat × Option TrieNode)) (r : Nat) (v : Option TrieNode) :
    lookupL (putL l r v) r = some v := by
  induction l with
  | nil => simp [putL, lookupL]
  | cons hd rest ih =>
    obtain ⟨k, w⟩ := hd
    by_cases hk : k = r <;> simp [putL, lookupL, hk, ih]

theorem putL_putL (l : List (Nat × Option TrieNode)) (r : Nat) (v w : Option TrieNode) :
    putL (putL l r v) r w = putL l r w := by
  induction l with
  | nil => simp [putL]
  | cons hd rest ih =>
    obtain ⟨k, u⟩ := hd
    by_cases hk : k = r <;> simp [putL, hk, ih]

theorem putL_of_lookupL (l : List (Nat × Option TrieNode)) (r : Nat) (v : Option TrieNode)
    (h : lookupL l r = some v) : putL l r v = l := by
  induction l with
  | nil => simp [lookupL] at h
  | cons hd rest ih =>
    obtain ⟨k, u⟩ := hd
    by_cases hk : k = r
    · subst hk
      simp [lookupL] at h
      simp [putL, h]
    · simp [lookupL, hk] at h
      simp [putL, hk, ih h]

theorem GetLink_PutLink_self (t : TrieNode) (r : Nat) (v : Option TrieNode) :
    (t.PutLink r v).GetLink r = v := by
  cases v <;> simp [TrieNode.GetLink, TrieNode.PutLink, TrieNode.link, lookupL_putL_self]

theorem GetVals_PutLink (t : TrieNode) (r : Nat) (v : Option TrieNode) :
    (t.PutLink r v).GetVals = t.GetVals := rfl

theorem GetVals_RemoveLink (t : TrieNode) (r : Nat) :
    (t.RemoveLink r).GetVals = t.GetVals := rfl

theorem PutLink_PutLink (t : TrieNode) (r : Nat) (v w : Option TrieNode) :
    (t.PutLink r v).PutLink r w = t.PutLink r w := by
  cases t with
  | mk link ids => simp [TrieNode.PutLink, TrieNode.link, putL_putL]

theorem PutLink_of_GetLink (t : TrieNode) (r : Nat) (c : TrieNode)
    (h : t.GetLink r = some c) : t.PutLink r (some c) = t := by
  have hl : lookupL t.link r = some (some c) := by
    unfold TrieNode.GetLink at h
    cases hl : lookupL t.link r with
    | none => rw [hl] at h; simp at h
    | some v =>
      cases v with
      | none => rw [hl] at h; simp at h
      | some c2 =>
        rw [hl] at h
        have hc : c2 = c := by simpa using h
        rw [hc]
  cases t with
  | mk link ids =>
    have := putL_of_lookupL link r (some c) (by simpa [TrieNode.link] using hl)
    simp [TrieNode.PutLink, TrieNode.link, this]

/-! ### Equation lemmas for the traversal functions -/

theorem findTip_nil (t : TrieNode) : findTip [] t = some t := rfl

theorem findTip_cons (r : Nat) (rest : List Nat) (t : TrieNode) :
    findTip (r :: rest) t =
      (match t.GetLink r with
        | some c => findTip rest c
        | none => none) := rfl

theorem addLoop_nil (t : TrieNode) (id : Nat) :
    addLoop t [] id = if t.ContainsVal id then t else t.SaveVal id := rfl

theorem addLoop_cons (t : TrieNode) (r : Nat) (rest : List Nat) (id : Nat) :
    addLoop t (r :: rest) id =
      (match t.GetLink r with
        | some child => t.PutLink r (some (addLoop child rest id))
        | none => t.PutLink r (some (addLoop NewTrieNode rest id))) := rfl

theorem removeHelper_nil (t : TrieNode) (id : Nat) :
    removeHelper t [] id =
      (if ¬ t.ContainsVal id then (t, false)
       else
         let c1 := t.RemoveVal id
         if c1.GetVals.length = 0 ∧ c1.IsLeafNode then (c1, true) else (c1, false)) := rfl

theorem removeHelper_cons (t : TrieNode) (r : Nat) (rest : List Nat) (id : Nat) :
    removeHelper t (r :: rest) id =
      (match t.GetLink r with
        | none => (t, false)
        | some node =>
          let res := removeHelper node rest id
          if res.2 then
            let c1 := (t.PutLink r (some res.1)).RemoveLink r
            (c1, c1.IsLeafNode)
          else
            (t.PutLink r (some res.1), false)) := rfl

/-! ### `Get` as a function of `findTip` -/

theorem get_eq_findTip (t : Trie) (p : List Nat) :
    t.Get p = (match findTip (lowerStr p) t.root with
      | none => []
      | some n => n.GetVals) := by
  unfold Trie.Get
  cases findTip (lowerStr p) t.root with
  | none => rfl
  | some n =>
    simp only []
    cases hv : n.GetVals <;> simp [hv]

/-! ### `addLoop` lemmas -/

theorem SaveVal_vals (s : IDSet) (id : Nat) :
    (s.SaveVal id).vals = if id ∈ s.vals then s.vals else s.vals ++ [id] := by
  unfold IDSet.SaveVal IDSet.ContainsVal
  by_cases h : id ∈ s.vals <;> simp [h]

theorem contains_SaveVal (s : IDSet) (id : Nat) : id ∈ (s.SaveVal id).vals := by
  rw [SaveVal_vals]
  by_cases h : id ∈ s.vals <;> simp [h]

theorem findTip_addLoop (s : List Nat) (t : TrieNode) (id : Nat) :
    ∃ n, findTip s (addLoop t s id) = some n ∧ id ∈ n.GetVals := by
  induction s generalizing t with
  | nil =>
    refine ⟨addLoop t [] id, rfl, ?_⟩
    rw [addLoop_nil]
    by_cases hc : t.ContainsVal id
    · have : id ∈ t.idset.vals := List.elem_iff.1 hc
      simpa [hc, TrieNode.GetVals, IDSet.GetVals] using this
    · simpa [hc, TrieNode.GetVals, TrieNode.SaveVal, IDSet.GetVals] using
        contains_SaveVal t.idset id
  | cons r rest ih =>
    rw [addLoop_cons]
    cases hg : t.GetLink r with
    | some child =>
      obtain ⟨n, h1, h2⟩ := ih child
      refine ⟨n, ?_, h2⟩
      rw [findTip_cons]
      simp [GetLink_PutLink_self, h1]
    | none =>
      obtain ⟨n, h1, h2⟩ := ih NewTrieNode
      refine ⟨n, ?_, h2⟩
      rw [findTip_cons]
      simp [GetLink_PutLink_self, h1]

theorem addLoop_addLoop (s : List Nat) (t : TrieNode) (id : Nat) :
    addLoop (addLoop t s id) s id = addLoop t s id := by
  induction s generalizing t with
  | nil =>
    rw [addLoop_nil]
    by_cases hc : t.ContainsVal id
    · simp [hc, addLoop_nil]
    · have h2 : (t.SaveVal id).ContainsVal id = true :=
        List.elem_iff.2 (contains_SaveVal t.idset id)
      simp [hc, addLoop_nil, h2]
  | cons r rest ih =>
    cases hg : t.GetLink r with
    | some child =>
      rw [addLoop_cons t r rest id, hg]
      simp only []
      rw [addLoop_cons]
      simp only [GetLink_PutLink_self]
      rw [ih child, PutLink_PutLink]
    | none =>
      rw [addLoop_cons t r rest id, hg]
      simp only []
      rw [addLoop_cons]
      simp only [GetLink_PutLink_self]
      rw [ih NewTrieNode, PutLink_PutLink]

theorem addLoop_cons_GetVals (t : TrieNode) (r : Nat) (rest : List Nat) (id : Nat) :
    (addLoop t (r :: rest) id).GetVals = t.GetVals := by
  rw [addLoop_cons]
  cases t.GetLink r <;> rfl

/-! ### `removeHelper` lemmas -/

theorem removeHelper_of_absent (p : List Nat) (t : TrieNode) (id : Nat)
    (h : pairPresentB t p id = false) : removeHelper t p id = (t, false) := by
  induction p generalizing t with
  | nil =>
    have hc : t.ContainsVal id = false := h
    rw [removeHelper_nil]
    simp [hc]
  | cons r rest ih =>
    rw [removeHelper_cons]
    cases hg : t.GetLink r with
    | none => rfl
    | some node =>
      have hnode : pairPresentB node rest id = false := by
        unfold pairPresentB at h ⊢
        rw [findTip_cons, hg] at h
        exact h
      simp only [ih node hnode]
      simp [PutLink_of_GetLink t r node hg]

theorem removeHelper_GetVals_nil (p : List Nat) (t : TrieNode) (id : Nat)
    (h : t.GetVals = []) : ((removeHelper t p id).1).GetVals = [] := by
  cases p with
  | nil =>
    have hvals : t.idset.vals = [] := h
    have hc : t.ContainsVal id = false := by
      simp [TrieNode.ContainsVal, IDSet.ContainsVal, hvals]
    rw [removeHelper_nil]
    simp [hc]
    exact h
  | cons r rest =>
    rw [removeHelper_cons]
    cases hg : t.GetLink r with
    | none => exact h
    | some node =>
      simp only []
      split
      · simpa [GetVals_RemoveLink, GetVals_PutLink] using h
      · simpa [GetVals_PutLink] using h

theorem runOps_root_GetVals (ops : List Op) (t : Trie) (h1 : t.root.GetVals = [])
    (h2 : addKeysNonempty ops = true) : (runOps t ops).root.GetVals = [] := by
  induction ops generalizing t with
  | nil => exact h1
  | cons op rest ih =>
    cases op with
    | add k id =>
      have hk : (!k.isEmpty) = true ∧ addKeysNonempty rest = true := by
        simpa [addKeysNonempty, Bool.and_eq_true] using h2
      refine ih (t.Add k id) ?_ hk.2
      cases k with
      | nil => simp [List.isEmpty] at hk
      | cons r0 krest =>
        show (addLoop t.root (lowerStr (r0 :: krest)) id).GetVals = []
        rw [show lowerStr (r0 :: krest) = lowerByte r0 :: lowerStr krest from rfl]
        rw [addLoop_cons_GetVals]
        exact h1
    | rem k id =>
      have h2r : addKeysNonempty rest = true := by
        simpa [addKeysNonempty] using h2
      exact ih (t.Remove k id) (removeHelper_GetVals_nil k t.root id h1) h2r


theorem subIds_none : subIds none = [] := by
  simp [subIds]

theorem subIds_some (link : List (Nat × Option TrieNode)) (ids : IDSet) :
    subIds (some (.mk link ids)) = ids.GetVals ++ subIdsKids link := by
  simp [subIds]

theorem subIdsKids_nil : subIdsKids [] = [] := by
  simp [subIdsKids]

theorem subIdsKids_cons (a : Nat) (c : Option TrieNode) (rest : List (Nat × Option TrieNode)) :
    subIdsKids ((a, c) :: rest) = subIds c ++ subIdsKids rest := by
  simp [subIdsKids]


theorem Phi_self_of_subset (mx : Int) (res A : List Nat) (h : res.Nodup)
    (hsub : A.toFinset ⊆ res.toFinset) : Phi mx res A res := by
  have hu : res.toFinset ∪ A.toFinset = res.toFinset := Finset.union_eq_left.2 hsub
  refine ⟨h, ⟨[], (res.append_nil).symm⟩, ?_, ?_, ?_⟩
  · rw [hu]
  · rw [hu, List.toFinset_card_of_nodup h]
    omega
  · intro _
    rw [hu]

theorem Phi_self_of_cap (mx : Int) (res A : List Nat) (h : res.Nodup)
    (hcap : mx ≤ (res.length : Int)) : Phi mx res A res := by
  refine ⟨h, ⟨[], (res.append_nil).symm⟩, Finset.subset_union_left, ?_, ?_⟩
  · have : ((res.toFinset ∪ A.toFinset).card : Int) ≥ 0 := by positivity
    omega
  · intro hlt
    omega

theorem Phi_append_new (mx : Int) (res : List Nat) (id : Nat) (h : res.Nodup)
    (hm : id ∉ res) (hlt : (res.length : Int) < mx) : Phi mx res [id] (res ++ [id]) := by
  have hnd : (res ++ [id]).Nodup := by
    simp [List.nodup_append, h, hm]
  have hun : res.toFinset ∪ [id].toFinset = insert id res.toFinset := by
    rw [show ([id] : List Nat).toFinset = {id} from by simp, Finset.union_comm]
    rfl
  have hcard : (res.toFinset ∪ [id].toFinset).card = res.toFinset.card + 1 := by
    rw [hun, Finset.card_insert_of_not_mem (by simpa using hm)]
  refine ⟨hnd, ⟨[id], rfl⟩, ?_, ?_, ?_⟩
  · simp
  · rw [hcard, List.toFinset_card_of_nodup h]
    simp only [List.length_append, List.length_cons, List.length_nil]
    omega
  · intro _
    simp

theorem Phi_comp (mx : Int) (res A r1 B out : List Nat)
    (h1 : Phi mx res A r1) (h2 : Phi mx r1 B out) : Phi mx res (A ++ B) out := by
  obtain ⟨nd1, ⟨xs1, he1⟩, s1, l1, c1⟩ := h1
  obtain ⟨nd2, ⟨xs2, he2⟩, s2, l2, c2⟩ := h2
  have hndres : res.Nodup := by
    rw [he1] at nd1
    exact (List.nodup_append.1 nd1).1
  have hAB : (A ++ B).toFinset = A.toFinset ∪ B.toFinset := List.toFinset_append
  have f5 : r1.length ≤ out.length := by
    rw [he2, List.length_append]
    omega
  refine ⟨nd2, ⟨xs1 ++ xs2, by rw [he2, he1, List.append_assoc]⟩, ?_, ?_, ?_⟩
  · rw [hAB, ← Finset.union_assoc]
    exact s2.trans (Finset.union_subset_union s1 (Finset.Subset.refl _))
  · rw [hAB, ← Finset.union_assoc]
    have hres_card : res.toFinset.card = res.length := List.toFinset_card_of_nodup hndres
    have hr1_card : r1.toFinset.card = r1.length := by
      rw [he1] at nd1 ⊢
      exact List.toFinset_card_of_nodup nd1
    have f1 : res.toFinset.card ≤ (res.toFinset ∪ A.toFinset).card :=
      Finset.card_le_card Finset.subset_union_left
    have f2 : (res.toFinset ∪ A.toFinset).card ≤
        ((res.toFinset ∪ A.toFinset) ∪ B.toFinset).card :=
      Finset.card_le_card Finset.subset_union_left
    have f3 : (r1.toFinset ∪ B.toFinset).card ≤
        ((res.toFinset ∪ A.toFinset) ∪ B.toFinset).card :=
      Finset.card_le_card (Finset.union_subset_union s1 (Finset.Subset.refl _))
    have f4 : r1.toFinset.card ≤ (r1.toFinset ∪ B.toFinset).card :=
      Finset.card_le_card Finset.subset_union_left
    by_cases hlt : (r1.length : Int) < mx
    · have hset : r1.toFinset = res.toFinset ∪ A.toFinset :=
        Finset.Subset.antisymm s1 (c1 hlt)
      have hcard3 : (r1.toFinset ∪ B.toFinset).card =
          ((res.toFinset ∪ A.toFinset) ∪ B.toFinset).card := by
        rw [hset]
      have hlen1 : r1.length = (res.toFinset ∪ A.toFinset).card := by
        rw [← hr1_card, hset]
      omega
    · omega
  · intro hlt
    rw [hAB, ← Finset.union_assoc]
    have hr1lt : (r1.length : Int) < mx := by omega
    have hsub1 : res.toFinset ∪ A.toFinset ⊆ r1.toFinset := c1 hr1lt
    have hsub2 : r1.toFinset ∪ B.toFinset ⊆ out.toFinset := c2 hlt
    intro x hx
    rcases Finset.mem_union.1 hx with hx1 | hx1
    · exact hsub2 (Finset.mem_union_left _ (hsub1 hx1))
    · exact hsub2 (Finset.mem_union_right _ hx1)

theorem Phi_saveStep (mx : Int) (res : IDSet) (id : Nat) (h : res.vals.Nodup) :
    Phi mx res.vals [id] ((if (res.Size : Int) < mx then res.SaveVal id else res).vals) := by
  by_cases hlt : (res.Size : Int) < mx
  · rw [if_pos hlt, SaveVal_vals]
    by_cases hm : id ∈ res.vals
    · rw [if_pos hm]
      exact Phi_self_of_subset mx res.vals [id] h (by simp [hm])
    · rw [if_neg hm]
      exact Phi_append_new mx res.vals id h hm (by simpa [IDSet.Size] using hlt)
  · rw [if_neg hlt]
    exact Phi_self_of_cap mx res.vals [id] h (by simpa [IDSet.Size] using hlt)

theorem savePhase_Phi (ids : List Nat) (mx : Int) (res : IDSet) (h : res.vals.Nodup) :
    Phi mx res.vals ids ((savePhase ids mx res).vals) := by
  induction ids generalizing res with
  | nil =>
    simpa [savePhase] using Phi_self_of_subset mx res.vals [] h (by simp)
  | cons id rest ih =>
    rw [show savePhase (id :: rest) mx res
        = savePhase rest mx (if (res.Size : Int) < mx then res.SaveVal id else res) from rfl]
    have h1 := Phi_saveStep mx res id h
    have h2 := ih (if (res.Size : Int) < mx then res.SaveVal id else res) h1.1
    have := Phi_comp mx res.vals [id] _ rest _ h1 h2
    simpa using this

/-! ### The bounded depth-first traversal satisfies the collection invariant -/

theorem depthFirst_none (mx : Int) (res : IDSet) : depthFirst none mx res = res := by
  simp [depthFirst]

theorem depthFirst_some (link : List (Nat × Option TrieNode)) (ids : IDSet)
    (mx : Int) (res : IDSet) :
    depthFirst (some (.mk link ids)) mx res =
      (if ids.vals.length > 0 ∧ (TrieNode.mk link ids).IsLeafNode
       then (if ids.vals.length > 0 then savePhase ids.vals mx res else res)
       else depthFirstKids link mx
         (if ids.vals.length > 0 then savePhase ids.vals mx res else res)) := by
  simp only [depthFirst]
  rfl

theorem depthFirstKids_nil (mx : Int) (res : IDSet) : depthFirstKids [] mx res = res := by
  simp [depthFirstKids]

theorem depthFirstKids_cons (a : Nat) (c : Option TrieNode)
    (rest : List (Nat × Option TrieNode)) (mx : Int) (res : IDSet) :
    depthFirstKids ((a, c) :: rest) mx res = depthFirstKids rest mx (depthFirst c mx res) := by
  simp [depthFirstKids]

theorem kid_size_bound {link : List (Nat × Option TrieNode)} {ids : IDSet} {N : Nat}
    (hc : sizeOf (some (TrieNode.mk link ids) : Option TrieNode) ≤ N + 1)
    {p : Nat × Option TrieNode} (hp : p ∈ link) : sizeOf p.2 ≤ N := by
  have h1 : sizeOf p < sizeOf link := List.sizeOf_lt_of_mem hp
  obtain ⟨a, c⟩ := p
  simp only [Option.some.sizeOf_spec, TrieNode.mk.sizeOf_spec, Prod.mk.sizeOf_spec] at hc h1 ⊢
  omega

theorem dfKids_Phi (l : List (Nat × Option TrieNode)) (mx : Int)
    (IH : ∀ p ∈ l, ∀ (res : IDSet), res.vals.Nodup →
      Phi mx res.vals (subIds p.2) ((depthFirst p.2 mx res).vals)) :
    ∀ (res : IDSet), res.vals.Nodup →
      Phi mx res.vals (subIdsKids l) ((depthFirstKids l mx res).vals) := by
  induction l with
  | nil =>
    intro res h
    rw [depthFirstKids_nil, subIdsKids_nil]
    exact Phi_self_of_subset mx res.vals [] h (by simp)
  | cons hd rest ihl =>
    intro res h
    obtain ⟨a, c⟩ := hd
    rw [depthFirstKids_cons, subIdsKids_cons]
    have h1 := IH (a, c) (by simp) res h
    have h2 := ihl (fun p hp => IH p (List.mem_cons_of_mem _ hp)) (depthFirst c mx res) h1.1
    exact Phi_comp mx res.vals (subIds c) _ (subIdsKids rest) _ h1 h2

theorem depthFirst_Phi_aux : ∀ (N : Nat) (c : Option TrieNode), sizeOf c ≤ N →
    ∀ (mx : Int) (res : IDSet), res.vals.Nodup →
      Phi mx res.vals (subIds c) ((depthFirst c mx res).vals) := by
  intro N
  induction N with
  | zero =>
    intro c hc
    exfalso
    cases c <;> simp at hc
  | succ N ih =>
    intro c hc mx res h
    cases c with
    | none =>
      rw [depthFirst_none, subIds_none]
      exact Phi_self_of_subset mx res.vals [] h (by simp)
    | some t =>
      cases t with
      | mk link ids =>
        have hkids : ∀ p ∈ link, ∀ (res2 : IDSet), res2.vals.Nodup →
            Phi mx res2.vals (subIds p.2) ((depthFirst p.2 mx res2).vals) :=
          fun p hp res2 h2 => ih p.2 (kid_size_bound hc hp) mx res2 h2
        have hres1 : Phi mx res.vals ids.vals
            ((if ids.vals.length > 0 then savePhase ids.vals mx res else res).vals) := by
          by_cases hlen : ids.vals.length > 0
          · rw [if_pos hlen]
            exact savePhase_Phi ids.vals mx res h
          · rw [if_neg hlen]
            have hnil : ids.vals = [] := by
              cases hv : ids.vals with
              | nil => rfl
              | cons a b => rw [hv] at hlen; simp at hlen
            rw [hnil]
            exact Phi_self_of_subset mx res.vals [] h (by simp)
        rw [depthFirst_some, subIds_some]
        by_cases hbr : ids.vals.length > 0 ∧ (TrieNode.mk link ids).IsLeafNode
        · rw [if_pos hbr]
          have hlinknil : link = [] := by
            have h2 := hbr.2
            unfold TrieNode.IsLeafNode TrieNode.GetAllRunes at h2
            simpa using h2
          subst hlinknil
          rw [subIdsKids_nil]
          simpa [IDSet.GetVals] using hres1
        · rw [if_neg hbr]
          have h2 := dfKids_Phi link mx hkids
            (if ids.vals.length > 0 then savePhase ids.vals mx res else res) hres1.1
          simpa [IDSet.GetVals] using
            Phi_comp mx res.vals ids.vals _ (subIdsKids link) _ hres1 h2

theorem depthFirst_Phi (c : Option TrieNode) (mx : Int) (res : IDSet)
    (h : res.vals.Nodup) : Phi mx res.vals (subIds c) ((depthFirst c mx res).vals) :=
  depthFirst_Phi_aux (sizeOf c) c le_rfl mx res h

theorem GetMany_eq (t : Trie) (p : List Nat) (n : Int) :
    t.GetMany p n = (match findTip (lowerStr p) t.root with
      | none => []
      | some curr => (depthFirst (some curr) n NewIDSet).vals) := by
  unfold Trie.GetMany
  cases findTip (lowerStr p) t.root <;> rfl



theorem findTipE_ok (p : List Nat) (t : TrieNode) :
    findTipE p (some t) = .ok (findTip p t) := by
  induction p generalizing t with
  | nil => rfl
  | cons r rest ih =>
    rw [findTip_cons]
    cases hg : t.GetLink r with
    | some c2 =>
      rw [show findTipE (r :: rest) (some t) = (match t.GetLink r with
          | some _ => findTipE rest (t.GetLink r)
          | none => .ok none) from rfl, hg]
      exact ih c2
    | none =>
      rw [show findTipE (r :: rest) (some t) = (match t.GetLink r with
          | some _ => findTipE rest (t.GetLink r)
          | none => .ok none) from rfl, hg]

theorem depthFirstE_none (mx : Int) (res : IDSet) : depthFirstE none mx res = .ok res := by
  simp [depthFirstE]

theorem depthFirstE_some (link : List (Nat × Option TrieNode)) (ids : IDSet)
    (mx : Int) (res : IDSet) :
    depthFirstE (some (.mk link ids)) mx res =
      (if ids.vals.length > 0 ∧ (TrieNode.mk link ids).IsLeafNode
       then .ok (if ids.vals.length > 0 then savePhase ids.vals mx res else res)
       else depthFirstKidsE link mx
         (if ids.vals.length > 0 then savePhase ids.vals mx res else res)) := by
  simp only [depthFirstE]
  rfl

theorem depthFirstKidsE_nil (mx : Int) (res : IDSet) :
    depthFirstKidsE [] mx res = .ok res := by
  simp [depthFirstKidsE]

theorem depthFirstKidsE_cons (a : Nat) (c : Option TrieNode)
    (rest : List (Nat × Option TrieNode)) (mx : Int) (res : IDSet) :
    depthFirstKidsE ((a, c) :: rest) mx res =
      (depthFirstE c mx res >>= fun r1 => depthFirstKidsE rest mx r1) := by
  simp [depthFirstKidsE]

theorem dfKidsE_ok_aux (l : List (Nat × Option TrieNode))
    (IH : ∀ p ∈ l, ∀ (mx : Int) (res : IDSet),
      depthFirstE p.2 mx res = .ok (depthFirst p.2 mx res)) :
    ∀ (mx : Int) (res : IDSet),
      depthFirstKidsE l mx res = .ok (depthFirstKids l mx res) := by
  induction l with
  | nil =>
    intro mx res
    rw [depthFirstKids_nil, depthFirstKidsE_nil]
  | cons hd rest ih =>
    intro mx res
    obtain ⟨a, c⟩ := hd
    rw [depthFirstKids_cons, depthFirstKidsE_cons, IH (a, c) (by simp) mx res]
    exact ih (fun p hp => IH p (List.mem_cons_of_mem _ hp)) mx (depthFirst c mx res)

theorem dfE_ok_aux : ∀ (N : Nat) (c : Option TrieNode), sizeOf c ≤ N →
    ∀ (mx : Int) (res : IDSet), depthFirstE c mx res = .ok (depthFirst c mx res) := by
  intro N
  induction N with
  | zero =>
    intro c hc
    exfalso
    cases c <;> simp at hc
  | succ N ih =>
    intro c hc mx res
    cases c with
    | none => rw [depthFirst_none, depthFirstE_none]
    | some t =>
      cases t with
      | mk link ids =>
        rw [depthFirst_some, depthFirstE_some]
        by_cases hbr : ids.vals.length > 0 ∧ (TrieNode.mk link ids).IsLeafNode
        · rw [if_pos hbr, if_pos hbr]
        · rw [if_neg hbr, if_neg hbr]
          exact dfKidsE_ok_aux link
            (fun p hp mx2 res2 => ih p.2 (kid_size_bound hc hp) mx2 res2) mx _

theorem dfE_ok (c : Option TrieNode) (mx : Int) (res : IDSet) :
    depthFirstE c mx res = .ok (depthFirst c mx res) :=
  dfE_ok_aux (sizeOf c) c le_rfl mx res


theorem WFNode.nodup {t : TrieNode} (h : WFNode t) : t.idset.vals.Nodup := by
  cases h with
  | mk link ids hnd hkids => exact hnd

theorem WFNode.getLink {t : TrieNode} (h : WFNode t) {r : Nat} {c : TrieNode}
    (hg : t.GetLink r = some c) : WFNode c := by
  cases h with
  | mk link ids hnd hkids =>
    apply hkids r c
    unfold TrieNode.GetLink at hg
    cases hl : lookupL (TrieNode.mk link ids).link r with
    | none => rw [hl] at hg; simp at hg
    | some v =>
      cases v with
      | none => rw [hl] at hg; simp at hg
      | some c2 =>
        rw [hl] at hg
        have : c2 = c := by simpa using hg
        rw [this] at hl
        exact hl

theorem WFNode.newNode : WFNode NewTrieNode :=
  WFNode.mk [] ⟨[]⟩ (by simp) (fun r c hx => by simp [lookupL] at hx)

theorem findTip_addLoop_count (s : List Nat) (t : TrieNode) (id : Nat) (hwf : WFNode t) :
    ∃ n, findTip s (addLoop t s id) = some n ∧ n.GetVals.count id = 1 := by
  induction s generalizing t with
  | nil =>
    refine ⟨addLoop t [] id, rfl, ?_⟩
    rw [addLoop_nil]
    by_cases hc : t.ContainsVal id
    · have hm : id ∈ t.idset.vals := List.elem_iff.1 hc
      simpa [hc, TrieNode.GetVals, IDSet.GetVals] using
        List.count_eq_one_of_mem hwf.nodup hm
    · have hm : id ∉ t.idset.vals := fun hmem => hc (List.elem_iff.2 hmem)
      have hz : t.idset.vals.count id = 0 := List.count_eq_zero.2 hm
      simp [hc, TrieNode.SaveVal, TrieNode.GetVals, IDSet.GetVals, SaveVal_vals, hm, hz]
  | cons r rest ih =>
    rw [addLoop_cons]
    cases hg : t.GetLink r with
    | some child =>
      obtain ⟨n, h1, h2⟩ := ih child (hwf.getLink hg)
      refine ⟨n, ?_, h2⟩
      rw [findTip_cons]
      simp [GetLink_PutLink_self, h1]
    | none =>
      obtain ⟨n, h1, h2⟩ := ih NewTrieNode WFNode.newNode
      refine ⟨n, ?_, h2⟩
      rw [findTip_cons]
      simp [GetLink_PutLink_self, h1]

/-! ## Claims -/

/-- C1. The claim states that after `Add(k, id)` then `Remove(k, id)` (with `k` stored
only under that path), `Get(k)` is empty and the dead suffix path collapses to the
nearest live ancestor, so no non-root identifier-free childless node persists. The
code violates the pruning half: with `k = "ab"`, after the round trip the node for
`"a"` is still attached to the root, holds zero identifiers and has no (non-nil)
children — `RemoveLink` stores `nil` under the key instead of deleting the map
entry, so the parent's `IsLeafNode` stays false and pruning never propagates. The
statement evaluates the code at that failing input: `Get` is empty (first half of the
claim holds) but the root still links to the garbage node for `"a"`, whose child map
holds the leftover `nil` entry for `"b"`. -/
theorem c1_dead_path_not_pruned :
    ((NewTrie.Add [97, 98] 1).Remove [97, 98] 1).Get [97, 98] = [] ∧
      ((NewTrie.Add [97, 98] 1).Remove [97, 98] 1).root =
        TrieNode.mk [(97, some (TrieNode.mk [(98, none)] ⟨[]⟩))] ⟨[]⟩ :=
  ⟨rfl, rfl⟩

/-- C2. The claim states that all four public operations case-fold their key. `Add`,
`Get` and `GetMany` do (`strings.ToLower` on entry), but `Trie.Remove` passes its
argument through verbatim, so removing a differently-cased spelling of a stored key
is a no-op. Evaluated at the failing input: after `Add("Foo", 1)`, `Get("FOO")`
does return `[1]` (folding works for `Add`/`Get`), but `Remove("FOO", 1)` leaves the
index completely unchanged and `Get("foo")` still returns `[1]`. -/
theorem c2_remove_not_case_folded :
    (NewTrie.Add [70, 111, 111] 1).Get [70, 79, 79] = [1] ∧
      ((NewTrie.Add [70, 111, 111] 1).Remove [70, 79, 79] 1) = NewTrie.Add [70, 111, 111] 1 ∧
      ((NewTrie.Add [70, 111, 111] 1).Remove [70, 79, 79] 1).Get [102, 111, 111] = [1] :=
  ⟨rfl, rfl, rfl⟩

/-- C3 counterexample. The claim states that the root's identifier set is empty in
every reachable state, even after `Add` with the empty-string key; but
`Add("", 1)` runs the walk loop zero times and saves the identifier directly into
the root's identifier set. -/
theorem c3_empty_key_add_hits_root : (NewTrie.Add [] 1).root.GetVals = [1] := rfl

/-- C3, amended. As long as no `Add` in the operation sequence uses the empty-string
key, the root node's identifier set stays empty in every reachable state (an `Add`
with a nonempty key never touches the root's identifier set, and `Remove` can only
delete identifiers, never store them). -/
theorem c3_root_stores_nothing_without_empty_key (ops : List Op)
    (h : addKeysNonempty ops = true) : (runOps NewTrie ops).root.GetVals = [] :=
  runOps_root_GetVals ops NewTrie rfl h

/-- Witness for C3 amended: a concrete add/remove sequence with nonempty keys. -/
theorem c3_root_stores_nothing_without_empty_key_witness :
    addKeysNonempty [Op.add [97] 1, Op.rem [97] 1] = true ∧
      (runOps NewTrie [Op.add [97] 1, Op.rem [97] 1]).root.GetVals = [] :=
  ⟨by decide, c3_root_stores_nothing_without_empty_key [Op.add [97] 1, Op.rem [97] 1] (by decide)⟩

/-- C4. For every state, prefix and limit `n ≥ 0`: when the path for the prefix does
not exist `GetMany` returns an empty sequence; otherwise it returns a duplicate-free
sequence of identifiers, each stored at or below the tip node, whose length is
exactly the minimum of `n` and the number of distinct identifiers in that subtree. -/
theorem c4_getmany_bounded (t : Trie) (p : List Nat) (n : Int) (hn : 0 ≤ n) :
    C4Post t p n := by
  unfold C4Post
  cases hf : findTip (lowerStr p) t.root with
  | none =>
    rw [GetMany_eq, hf]
  | some tip =>
    have hgm : t.GetMany p n = (depthFirst (some tip) n NewIDSet).vals := by
      rw [GetMany_eq, hf]
    obtain ⟨nd, ⟨xs, hpre⟩, hsub, hlen, hcomp⟩ :=
      depthFirst_Phi (some tip) n NewIDSet (by simp [NewIDSet])
    have hset : NewIDSet.vals.toFinset ∪ (subIds (some tip)).toFinset
        = (subIds (some tip)).toFinset := by
      simp [NewIDSet]
    rw [hset] at hsub hlen
    rw [hgm]
    refine ⟨nd, ?_, ?_⟩
    · intro x hx
      exact List.mem_toFinset.1 (hsub (List.mem_toFinset.2 hx))
    · have hcard : (0 : Int) ≤ (((subIds (some tip)).toFinset.card : Int)) := by positivity
      rw [show NewIDSet.vals.length = 0 from rfl] at hlen
      omega

/-- Witness for C4: a concrete two-key index queried below the cap and at the cap. -/
theorem c4_getmany_bounded_witness :
    0 ≤ (2 : Int) ∧ C4Post ((NewTrie.Add [97, 98] 1).Add [97, 99] 2) [97] 2 :=
  ⟨by decide, c4_getmany_bounded ((NewTrie.Add [97, 98] 1).Add [97, 99] 2) [97] 2 (by decide)⟩

/-- C5. `Get` is exact-match: it lower-cases the key, and returns an empty sequence
when the path does not fully exist, and exactly the terminal node's identifier
values otherwise (hence never identifiers stored at descendant nodes). -/
theorem c5_get_exact_match (t : Trie) (p : List Nat) :
    t.Get p = (match findTip (lowerStr p) t.root with
      | none => []
      | some n => n.GetVals) :=
  get_eq_findTip t p

/-- C6. Round-trip: for every starting state, key and identifier, `Add(k, id)`
followed by `Get(k)` returns a sequence containing `id`. -/
theorem c6_add_get_roundtrip (t : Trie) (k : List Nat) (id : Nat) :
    id ∈ (t.Add k id).Get k := by
  obtain ⟨n, h1, h2⟩ := findTip_addLoop (lowerStr k) t.root id
  rw [get_eq_findTip, show findTip (lowerStr k) ((t.Add k id).root) = some n from h1]
  exact h2

/-- C7. `Add` is idempotent per (key, id) pair: calling `Add(k, id)` twice leaves the
index in exactly the state one call produces; and (for any starting state whose
identifier sets are duplicate-free, as every reachable state is) `Get(k)` afterwards
contains `id` exactly once, so the repeat neither duplicates `id` nor changes the
size of the identifier set at that position. -/
theorem c7_add_idempotent (t : Trie) (k : List Nat) (id : Nat) (h : WFNode t.root) :
    (t.Add k id).Add k id = t.Add k id ∧ ((t.Add k id).Get k).count id = 1 := by
  constructor
  · show Trie.mk (addLoop (addLoop t.root (lowerStr k) id) (lowerStr k) id) = _
    rw [addLoop_addLoop]
    rfl
  · obtain ⟨n, h1, h2⟩ := findTip_addLoop_count (lowerStr k) t.root id h
    rw [get_eq_findTip, show findTip (lowerStr k) ((t.Add k id).root) = some n from h1]
    exact h2

/-- Witness for C7: the empty index is well-formed, and adding one pair twice equals
adding it once, with the identifier reported exactly once by `Get`. -/
theorem c7_add_idempotent_witness :
    WFNode NewTrie.root ∧
      ((NewTrie.Add [97] 5).Add [97] 5 = NewTrie.Add [97] 5 ∧
        ((NewTrie.Add [97] 5).Get [97]).count 5 = 1) := by
  have hw : WFNode NewTrie.root :=
    WFNode.mk [] ⟨[]⟩ (by simp) (fun r c hx => by simp [lookupL] at hx)
  exact ⟨hw, c7_add_idempotent NewTrie [97] 5 hw⟩

/-- C8. Removal of a non-existent pair is a silent no-op: when the path for `p` does
not fully exist, or `id` is absent from the terminal node's identifier set, `Remove`
returns a state equal to the input state — no node, link or identifier set changes,
and (the function being total) no failure is raised. -/
theorem c8_remove_missing_pair_noop (t : Trie) (p : List Nat) (id : Nat)
    (h : pairPresentB t.root p id = false) : t.Remove p id = t := by
  unfold Trie.Remove
  rw [removeHelper_of_absent p t.root id h]

/-- Witness for C8: removing an absent pair from a concrete one-key index. -/
theorem c8_remove_missing_pair_noop_witness :
    pairPresentB (NewTrie.Add [97] 1).root [98] 2 = false ∧
      (NewTrie.Add [97] 1).Remove [98] 2 = NewTrie.Add [97] 1 :=
  ⟨by decide, c8_remove_missing_pair_noop (NewTrie.Add [97] 1) [98] 2 (by decide)⟩

/-- C9. The claim states that `Remove` acquires the same whole-tree writer lock as
`Add`, so it can never run concurrently with other operations. The code contradicts
the `Trie` struct's own documentation of `mx` as the mutex protecting the map:
`Remove`'s body performs no lock operation at all, while `Add` brackets its work in
`Lock`/`Unlock`; the two lock traces differ. -/
theorem c9_remove_unlocked :
    removeLockTrace = [] ∧ addLockTrace = [LockEv.lock, LockEv.unlock] ∧
      removeLockTrace ≠ addLockTrace :=
  ⟨rfl, rfl, by decide⟩

/-- C10. `Get` and `GetMany` never dereference a nil node, in any state whatsoever
(in particular in states where `RemoveLink` left child-map entries mapped to nil):
in the instrumented semantics, where every method call on a nil `*TrieNode` is a
failure, both operations succeed on every tree and agree with the pure embedding —
`findTip` tests each link before descending and `depthFirst` returns on nil. -/
theorem c10_reads_nil_safe (t : Trie) (p : List Nat) (n : Int) :
    GetE t p = .ok (t.Get p) ∧ GetManyE t p n = .ok (t.GetMany p n) := by
  constructor
  · unfold GetE Trie.Get
    rw [findTipE_ok]
    cases hf : findTip (lowerStr p) t.root with
    | none => rfl
    | some c =>
      by_cases hv : c.GetVals.length ≠ 0 <;>
        simp [hv, bind, Except.bind]
  · unfold GetManyE Trie.GetMany
    rw [findTipE_ok]
    cases hf : findTip (lowerStr p) t.root with
    | none => rfl
    | some c =>
      simp [bind, Except.bind, dfE_ok]

end GoTree
